import Mathlib

/-!
Verification of the rojkov/kubernetes fragment: kubeadm version-label
utilities (`ResolveVersionLabel`, `IsVersionLabel`,
`KubernetesVersionToImageTag`), the v1beta2 `PublicKeyAlgorithm` JSON
codec, and the scheduler priority/ranking engine described by the
specification (the package `pkg/scheduler/algorithm/priorities` is only
declared by its build manifest here, so that engine is modelled from the
specification).

Go strings are embedded as rune sequences (`List Char`); machine-level
byte encodings are irrelevant to the properties at stake.
-/

/-- A Go string, embedded as its sequence of runes. -/
abbrev Str := List Char

/-- ASCII whitespace recognised by the embedding of `strings.TrimSpace`. -/
def isSpaceChar (c : Char) : Bool :=
  c == ' ' || c == '\t' || c == '\n' || c == '\r' || c == '\x0b' || c == '\x0c'

/-- Embedding of `strings.TrimSpace`: drop leading and trailing whitespace. -/
def trimStr (s : Str) : Str :=
  ((s.dropWhile isSpaceChar).reverse.dropWhile isSpaceChar).reverse

/-- Uppercase one character (ASCII case mapping, the fragment used by the code). -/
def upperChar (c : Char) : Char :=
  if 'a' ≤ c ∧ c ≤ 'z' then Char.ofNat (c.toNat - 32) else c

/-- Embedding of `strings.ToUpper` on the ASCII fragment. -/
def upperStr (s : Str) : Str := s.map upperChar

/-- `[[:lower:]]` of the Go regexp: an ASCII lowercase letter. -/
def isLowerChar (c : Char) : Bool := 'a' ≤ c && c ≤ 'z'

/-- An ASCII letter. -/
def isAsciiLetter (c : Char) : Bool :=
  ('a' ≤ c && c ≤ 'z') || ('A' ≤ c && c ≤ 'Z')

/-- An ASCII digit. -/
def isAsciiDigit (c : Char) : Bool := '0' ≤ c && c ≤ '9'

/-- A character of the class `[-\w_\.]` of the Go regexp
`kubeReleaseLabelRegex` (`\w` is `[0-9A-Za-z_]`). -/
def isLabelWordChar (c : Char) : Bool :=
  c == '-' || c == '_' || c == '.' || isAsciiLetter c || isAsciiDigit c

/-- Embedding of `IsVersionLabel`: whether the string matches
`^[[:lower:]]+(-[-\w_\.]+)?$`.  The lowercase run is maximal; since `-`
is not lowercase the greedy parse is exactly the regex's language. -/
def isVersionLabel (s : Str) : Bool :=
  let p := s.takeWhile isLowerChar
  let r := s.dropWhile isLowerChar
  !p.isEmpty &&
    (match r with
     | [] => true
     | c :: w => c == '-' && !w.isEmpty && w.all isLabelWordChar)

/-- A character allowed in an image tag: the class `[-a-zA-Z0-9_\.]` of
the regexp in `KubernetesVersionToImageTag`. -/
def isAllowedTagChar (c : Char) : Bool :=
  c == '-' || isAsciiLetter c || isAsciiDigit c || c == '_' || c == '.'

/-- Embedding of `KubernetesVersionToImageTag`: replace every character
outside `[-a-zA-Z0-9_\.]` with an underscore. -/
def kubernetesVersionToImageTag (s : Str) : Str :=
  s.map fun c => if isAllowedTagChar c then c else '_'

/-- Outcome of one HTTP fetch of a version file, as observed by
`ResolveVersionLabel`: either the response body, or any of the failure
modes (transport error, non-200 status, unreadable body), which the code
maps to an immediate error return. -/
inductive FetchOutcome where
  | ok (body : Str)
  | fail
  deriving DecidableEq

/-- Result of `ResolveVersionLabel`, with the error cases of the code as
structured values. -/
inductive ResolveResult where
  | resolved (v : Str)
  | errInvalidLabel (label : Str)
  | errFetch
  | errExhausted
  deriving DecidableEq

/-- The fetch loop of `ResolveVersionLabel` (`for attempts := 0; attempts < 4`),
parameterised by the network as a function from the label being fetched
to the outcome.  Returns the result together with the number of fetches
performed. -/
def resolveAttempts (fetch : Str → FetchOutcome) : Nat → Str → ResolveResult × Nat
  | 0, _ => (.errExhausted, 0)
  | n + 1, ver =>
    match fetch ver with
    | .fail => (.errFetch, 1)
    | .ok body =>
      let v := trimStr body
      if isVersionLabel v then
        let r := resolveAttempts fetch n v
        (r.1, r.2 + 1)
      else (.resolved v, 1)

/-- Embedding of `ResolveVersionLabel`: reject labels failing
`IsVersionLabel` without fetching, otherwise resolve recursive labels
through at most 4 fetches. -/
def resolveVersionLabel (fetch : Str → FetchOutcome) (label : Str) :
    ResolveResult × Nat :=
  if isVersionLabel label then resolveAttempts fetch 4 label
  else (.errInvalidLabel label, 0)

/-- Modelled from the spec: the upper bound of the post-reduce score
range (`[0, MaxScore]`, "a fixed small integer range, e.g., 0-10"); the
package itself (`reduce.go`, `types.go`) is absent from the sources. -/
def MaxScore : Int := 10

/-- Modelled from the spec: a candidate node of the snapshot — its
identifier and its zone/topology label (`types.go` is absent from the
sources; identifiers and label values are embedded as naturals). -/
structure SchedNode where
  name : Nat
  zone : Nat
  deriving DecidableEq

/-- Modelled from the spec: an already-placed workload replica — the
node hosting it and its labels. -/
structure PlacedPod where
  nodeName : Nat
  labels : List (Nat × Nat)
  deriving DecidableEq

/-- Modelled from the spec: the read-only cluster snapshot — the node
list plus the already-placed workloads. -/
structure Snapshot where
  nodes : List SchedNode
  pods : List PlacedPod
  deriving DecidableEq

/-- Modelled from the spec: the workload descriptor, carrying the owning
controller's label selector when one exists. -/
structure Workload where
  selector : Option (List (Nat × Nat))
  deriving DecidableEq

/-- Modelled from the spec: cycle-scoped metadata holding the resolved
controller selector (`metadata.go` is absent from the sources). -/
structure Metadata where
  selector : Option (List (Nat × Nat))
  deriving DecidableEq

/-- Modelled from the spec: the metadata extractor, computed once per
cycle from the workload. -/
def extractMetadata (w : Workload) : Metadata := ⟨w.selector⟩

/-- Modelled from the spec: one node's score for one priority function. -/
structure HostPriority where
  host : Nat
  score : Int
  deriving DecidableEq

/-- Modelled from the spec: the per-function score list, one entry per
candidate node. -/
abbrev HostPriorityList := List HostPriority

/-- Modelled from the spec: the structured cycle-level errors — a
priority function signalling malformed input, and the bug-class empty
result with nodes present. -/
inductive SchedErr where
  | scoreFailed
  | emptyResult
  deriving DecidableEq

/-- Modelled from the spec: a configured priority function — scoring
function, optional reduce pass, and positive integer weight
(`priorities.go` is absent from the sources). -/
structure PriorityConfig where
  score : Workload → Metadata → Snapshot → Except SchedErr HostPriorityList
  reduce : Option (HostPriorityList → HostPriorityList)
  weight : Nat

/-- Running maximum of a list of integers, seeded with `a`. -/
def maxFrom (a : Int) : List Int → Int
  | [] => a
  | x :: xs => maxFrom (max a x) xs

/-- Running minimum of a list of integers, seeded with `a`. -/
def minFrom (a : Int) : List Int → Int
  | [] => a
  | x :: xs => minFrom (min a x) xs

/-- The maximum raw score of a score list (0 when empty). -/
def rawMax : HostPriorityList → Int
  | [] => 0
  | hp :: rest => maxFrom hp.score (rest.map fun p => p.score)

/-- The minimum raw score of a score list (0 when empty). -/
def rawMin : HostPriorityList → Int
  | [] => 0
  | hp :: rest => minFrom hp.score (rest.map fun p => p.score)

/-- Modelled from the spec: the default reduce pass (`reduce.go` is
absent from the sources): linear min-max normalization onto
`[0, MaxScore]`, an all-equal list mapping consistently to `MaxScore`. -/
def minMaxReduce : HostPriorityList → HostPriorityList
  | [] => []
  | hp :: rest =>
    let mx := rawMax (hp :: rest)
    let mn := rawMin (hp :: rest)
    if mx = mn then (hp :: rest).map fun p => { p with score := MaxScore }
    else
      (hp :: rest).map fun p =>
        { p with score := (p.score - mn) * MaxScore / (mx - mn) }

/-- Modelled from the spec: a map-style priority function (per-node raw
score) run across every node of the snapshot, producing one entry per
node. -/
def mapStyleScore (f : Workload → Metadata → SchedNode → Snapshot → Int)
    (w : Workload) (meta : Metadata) (s : Snapshot) : HostPriorityList :=
  s.nodes.map fun n => ⟨n.name, f w meta n s⟩

/-- Modelled from the spec: whether a placed pod matches the
controller's label selector (every selector pair appears among the pod's
labels). -/
def selMatches (sel : List (Nat × Nat)) (p : PlacedPod) : Bool :=
  sel.all fun kv => p.labels.contains kv

/-- Modelled from the spec: matching replicas grouped by node. -/
def countOnNode (s : Snapshot) (sel : List (Nat × Nat)) (n : Nat) : Nat :=
  (s.pods.filter fun p => p.nodeName == n && selMatches sel p).length

/-- Modelled from the spec: matching replicas grouped by
zone/topology-domain, derived from node labels. -/
def countInZone (s : Snapshot) (sel : List (Nat × Nat)) (z : Nat) : Nat :=
  (s.pods.filter fun p =>
    (s.nodes.any fun nd => nd.name == p.nodeName && nd.zone == z) &&
      selMatches sel p).length

/-- Modelled from the spec: the zone-vs-node spreading weight, a fixed
documented policy constant. -/
def zoneSpreadMultiplier : Int := 2

/-- Modelled from the spec: Selector Spreading
(`selector_spreading.go` is absent from the sources): with no owning
controller every node receives the neutral `MaxScore` without any
counting; otherwise nodes and zones hosting fewer matching replicas
score higher. -/
def selectorSpreadScore (meta : Metadata) (s : Snapshot) : HostPriorityList :=
  match meta.selector with
  | none => s.nodes.map fun n => ⟨n.name, MaxScore⟩
  | some sel =>
    let maxNode := (s.nodes.map fun n => countOnNode s sel n.name).foldr max 0
    let maxZone := (s.nodes.map fun n => countInZone s sel n.zone).foldr max 0
    s.nodes.map fun n =>
      ⟨n.name,
        zoneSpreadMultiplier * ((maxZone : Int) - countInZone s sel n.zone) +
          ((maxNode : Int) - countOnNode s sel n.name)⟩

/-- Modelled from the spec: apply a config's reduce pass (`none` is the
identity reduce of pre-normalized functions). -/
def applyReduce (r : Option (HostPriorityList → HostPriorityList))
    (l : HostPriorityList) : HostPriorityList :=
  match r with
  | none => l
  | some f => f l

/-- Modelled from the spec: the per-node accumulator read-out — the
score recorded for a host in a function's list, zero-initialized. -/
def lookupScore (host : Nat) (l : HostPriorityList) : Int :=
  match l.find? (fun hp => hp.host == host) with
  | some hp => hp.score
  | none => 0

/-- Modelled from the spec: run one configured priority function: an
error aborts; an empty result with nodes present is the bug-class error;
otherwise the reduce pass is applied. -/
def runConfig (w : Workload) (meta : Metadata) (s : Snapshot)
    (c : PriorityConfig) : Except SchedErr HostPriorityList :=
  match c.score w meta s with
  | .error e => .error e
  | .ok l =>
    if l.isEmpty && !s.nodes.isEmpty then .error .emptyResult
    else .ok (applyReduce c.reduce l)

/-- Modelled from the spec: run every configured priority function,
failing fast on the first error. -/
def runConfigs (w : Workload) (meta : Metadata) (s : Snapshot) :
    List PriorityConfig → Except SchedErr Unit
  | [] => .ok ()
  | c :: rest =>
    match runConfig w meta s c with
    | .error e => .error e
    | .ok _ => runConfigs w meta s rest

/-- Modelled from the spec: one config's weighted contribution to one
node's running total (reduced score times configured weight). -/
def contribution (w : Workload) (meta : Metadata) (s : Snapshot)
    (c : PriorityConfig) (host : Nat) : Int :=
  (c.weight : Int) *
    lookupScore host (applyReduce c.reduce ((c.score w meta s).toOption.getD []))

/-- Modelled from the spec: a node's total — the zero-initialized sum of
every config's weighted contribution. -/
def totalScore (w : Workload) (meta : Metadata) (s : Snapshot)
    (cfgs : List PriorityConfig) (host : Nat) : Int :=
  (cfgs.map fun c => contribution w meta s c host).sum

/-- Modelled from the spec: the output order — total score descending,
ties broken by node identifier ascending. -/
def rankLE (a b : HostPriority) : Prop :=
  b.score < a.score ∨ (a.score = b.score ∧ a.host ≤ b.host)

/-- The strict version of `rankLE`. -/
def rankLT (a b : HostPriority) : Prop :=
  b.score < a.score ∨ (a.score = b.score ∧ a.host < b.host)

instance : DecidableRel rankLE := fun a b => by unfold rankLE; infer_instance

instance : DecidableRel rankLT := fun a b => by unfold rankLT; infer_instance

instance : IsTotal HostPriority rankLE where
  total a b := by
    rcases lt_trichotomy a.score b.score with h | h | h
    · exact Or.inr (Or.inl h)
    · rcases Nat.le_total a.host b.host with h2 | h2
      · exact Or.inl (Or.inr ⟨h, h2⟩)
      · exact Or.inr (Or.inr ⟨h.symm, h2⟩)
    · exact Or.inl (Or.inl h)

instance : IsTrans HostPriority rankLE where
  trans a b c hab hbc := by
    rcases hab with h1 | ⟨h1, h1h⟩ <;> rcases hbc with h2 | ⟨h2, h2h⟩
    · exact Or.inl (h2.trans h1)
    · exact Or.inl (h2 ▸ h1)
    · exact Or.inl (h1 ▸ h2)
    · exact Or.inr ⟨h1.trans h2, h1h.trans h2h⟩

/-- Modelled from the spec: the Aggregator.  `Rank` extracts metadata
once, runs every weighted priority function with its reduce pass failing
fast on errors, totals the weighted scores per node, and sorts by total
descending with ties broken by node identifier ascending. -/
def Rank (w : Workload) (s : Snapshot) (cfgs : List PriorityConfig) :
    Except SchedErr HostPriorityList :=
  let meta := extractMetadata w
  match runConfigs w meta s cfgs with
  | .error e => .error e
  | .ok _ => .ok (List.insertionSort rankLE
      (s.nodes.map fun n => ⟨n.name, totalScore w meta s cfgs n.name⟩))

/-- Modelled from the spec: the underlying `kubeadm.PublicKeyAlgorithm`
enumeration (declared outside the visible sources, mirroring
`crypto/x509.PublicKeyAlgorithm`) wrapped by the v1beta2 type. -/
inductive PublicKeyAlgorithm where
  | UnknownAlg
  | RSA
  | DSA
  | ECDSA
  | Ed25519
  deriving DecidableEq

/-- Modelled from the spec: `kubeadm.PublicKeyAlgorithm.String()`
(outside the visible sources), which renders `RSA` and `ECDSA` by their
standard names. -/
def algString : PublicKeyAlgorithm → Str
  | .UnknownAlg => ['U','n','k','n','o','w','n']
  | .RSA => ['R','S','A']
  | .DSA => ['D','S','A']
  | .ECDSA => ['E','C','D','S','A']
  | .Ed25519 => ['E','d','2','5','5','1','9']

/-- Embedding of `encoding/json` marshalling of a string on the
escape-free fragment the codec produces: wrap in double quotes. -/
def jsonEncodeString (s : Str) : Str := '"' :: (s ++ ['"'])

/-- Embedding of `encoding/json` unmarshalling into a string on the
escape-free fragment: a double-quoted run with no interior quote or
backslash decodes to the interior; anything else is a decode error. -/
def jsonDecodeString (b : Str) : Option Str :=
  match b with
  | '"' :: rest =>
    let inner := rest.dropLast
    if rest.getLast? = some '"' &&
        inner.all (fun c => !(c == '"') && !(c == '\\')) then
      some inner
    else none
  | _ => none

/-- Embedding of `MarshalJSON`: marshal the algorithm's string form. -/
def marshalJSON (a : PublicKeyAlgorithm) : Str := jsonEncodeString (algString a)

/-- Embedding of `UnmarshalJSON` as a transition on the receiver's field:
decode the JSON string, switch on its trimmed uppercase form, and report
success; on any error the field keeps its previous value. -/
def unmarshalJSON (a : PublicKeyAlgorithm) (b : Str) : PublicKeyAlgorithm × Bool :=
  match jsonDecodeString b with
  | none => (a, false)
  | some str =>
    let u := upperStr (trimStr str)
    if u = ['R','S','A'] then (.RSA, true)
    else if u = ['E','C','D','S','A'] then (.ECDSA, true)
    else (a, false)

/-- A network that always answers with the body `stable-1`. -/
def constStableFetch : Str → FetchOutcome := fun _ => .ok ['s','t','a','b','l','e','-','1']

/-- A config whose priority function always reports malformed input. -/
def failingConfig : PriorityConfig :=
  { score := fun _ _ _ => .error .scoreFailed, reduce := none, weight := 1 }

/-- A config whose priority function always returns the empty list. -/
def emptyListConfig : PriorityConfig :=
  { score := fun _ _ _ => .ok [], reduce := none, weight := 1 }

/-- A map-style config counting a node's identifier as its raw score. -/
def hostScoreConfig : PriorityConfig :=
  { score := fun w meta s => .ok (mapStyleScore (fun _ _ n _ => (n.name : Int)) w meta s),
    reduce := some minMaxReduce,
    weight := 3 }

/-- A map-style config rewarding the node with the smaller identifier. -/
def invHostScoreConfig : PriorityConfig :=
  { score := fun w meta s =>
      .ok (mapStyleScore (fun _ _ n _ => 5 - (n.name : Int)) w meta s),
    reduce := some minMaxReduce,
    weight := 2 }

theorem resolveAttempts_count_le (fetch : Str → FetchOutcome) :
    ∀ (n : Nat) (ver : Str), (resolveAttempts fetch n ver).2 ≤ n := by
  intro n
  induction n with
  | zero => intro ver; simp [resolveAttempts]
  | succ n ih =>
    intro ver
    simp only [resolveAttempts]
    cases fetch ver with
    | fail => simp
    | ok body =>
      simp only []
      split
      · exact Nat.succ_le_succ (ih _)
      · exact Nat.succ_le_succ (Nat.zero_le _)

theorem resolveAttempts_exhausted (fetch : Str → FetchOutcome)
    (hfetch : ∀ u, ∃ b, fetch u = .ok b ∧ isVersionLabel (trimStr b) = true) :
    ∀ (n : Nat) (ver : Str), resolveAttempts fetch n ver = (.errExhausted, n) := by
  intro n
  induction n with
  | zero => intro ver; simp [resolveAttempts]
  | succ n ih =>
    intro ver
    obtain ⟨b, hb, hlab⟩ := hfetch ver
    simp only [resolveAttempts, hb, hlab, if_pos, ih]

/-- C8: `ResolveVersionLabel` errors without fetching on every label that
fails the version-label pattern; a valid label incurs at most 4 fetches;
and if every fetched (trimmed) body is itself still a version label, the
result is the exhausted-attempts error. -/
theorem c8_resolveVersionLabel_spec (fetch : Str → FetchOutcome) (label : Str) :
    (isVersionLabel label = false →
      resolveVersionLabel fetch label = (.errInvalidLabel label, 0)) ∧
    (resolveVersionLabel fetch label).2 ≤ 4 ∧
    (isVersionLabel label = true →
      (∀ u, ∃ b, fetch u = .ok b ∧ isVersionLabel (trimStr b) = true) →
      resolveVersionLabel fetch label = (.errExhausted, 4)) := by
  refine ⟨fun h => ?_, ?_, fun hl hfetch => ?_⟩
  · simp [resolveVersionLabel, h]
  · unfold resolveVersionLabel
    split
    · exact resolveAttempts_count_le fetch 4 label
    · exact Nat.zero_le _
  · simp [resolveVersionLabel, hl, resolveAttempts_exhausted fetch hfetch 4 label]

theorem c8_resolveVersionLabel_spec_witness :
    resolveVersionLabel constStableFetch ['!','b','a','d'] =
        (.errInvalidLabel ['!','b','a','d'], 0) ∧
    resolveVersionLabel constStableFetch ['s','t','a','b','l','e'] =
        (.errExhausted, 4) := by
  constructor
  · exact (c8_resolveVersionLabel_spec constStableFetch ['!','b','a','d']).1 (by decide)
  · refine (c8_resolveVersionLabel_spec constStableFetch ['s','t','a','b','l','e']).2.2
      (by decide) ?_
    intro u
    exact ⟨['s','t','a','b','l','e','-','1'], rfl, by decide⟩

/-- C10: `KubernetesVersionToImageTag` emits only allowed tag characters,
replaces every disallowed character with an underscore in place, and is
idempotent. -/
theorem c10_imageTag_spec (s : Str) :
    (∀ c ∈ kubernetesVersionToImageTag s, isAllowedTagChar c = true) ∧
    kubernetesVersionToImageTag (kubernetesVersionToImageTag s) =
      kubernetesVersionToImageTag s ∧
    (∀ (i : Nat) (h : i < s.length) (h2 : i < (kubernetesVersionToImageTag s).length),
      (kubernetesVersionToImageTag s).get ⟨i, h2⟩ =
        if isAllowedTagChar (s.get ⟨i, h⟩) then s.get ⟨i, h⟩ else '_') := by
  refine ⟨?_, ?_, ?_⟩
  · intro c hc
    simp only [kubernetesVersionToImageTag, List.mem_map] at hc
    obtain ⟨a, _, ha⟩ := hc
    by_cases h : isAllowedTagChar a = true
    · rw [← ha]; simp [h]
    · rw [← ha]; simp [h]; decide
  · simp only [kubernetesVersionToImageTag, List.map_map]
    apply List.map_congr_left
    intro a _
    by_cases h : isAllowedTagChar a = true
    · simp [Function.comp, h]
    · simp only [Function.comp_apply]
      rw [if_neg h]
      decide
  · intro i h h2
    simp [kubernetesVersionToImageTag, List.getElem_map]

/-- C9: the JSON codec round-trips `RSA` and `ECDSA`; unmarshalling a
decodable JSON string succeeds exactly when the payload, trimmed and
uppercased, is `RSA` or `ECDSA`; and every failing unmarshal leaves the
receiver's algorithm field unchanged. -/
theorem c9_publicKeyAlgorithm_json_spec :
    (∀ a0, unmarshalJSON a0 (marshalJSON .RSA) = (.RSA, true)) ∧
    (∀ a0, unmarshalJSON a0 (marshalJSON .ECDSA) = (.ECDSA, true)) ∧
    (∀ (a0 : PublicKeyAlgorithm) (b str : Str), jsonDecodeString b = some str →
      ((unmarshalJSON a0 b).2 = true ↔
        (upperStr (trimStr str) = ['R','S','A'] ∨
         upperStr (trimStr str) = ['E','C','D','S','A']))) ∧
    (∀ (a0 : PublicKeyAlgorithm) (b : Str),
      (unmarshalJSON a0 b).2 = false → (unmarshalJSON a0 b).1 = a0) := by
  refine ⟨fun a0 => rfl, fun a0 => rfl, ?_, ?_⟩
  · intro a0 b str hdec
    simp only [unmarshalJSON, hdec]
    split
    · simp_all
    · split
      · simp_all
      · simp_all
  · intro a0 b
    unfold unmarshalJSON
    cases hdec : jsonDecodeString b with
    | none => intro _; rfl
    | some str =>
      simp only []
      split
      · intro h; exact absurd h (by simp)
      · split
        · intro h; exact absurd h (by simp)
        · intro _; rfl

theorem c9_publicKeyAlgorithm_json_spec_witness :
    unmarshalJSON .UnknownAlg (marshalJSON .RSA) = (.RSA, true) ∧
    (unmarshalJSON .UnknownAlg ['"', 'r', 's', 'a', '"']).2 = true ∧
    (unmarshalJSON .ECDSA ['"', 'f', 'o', 'o', '"']).1 = .ECDSA := by
  refine ⟨c9_publicKeyAlgorithm_json_spec.1 .UnknownAlg, ?_, ?_⟩
  · exact ((c9_publicKeyAlgorithm_json_spec.2.2.1 .UnknownAlg
      ['"', 'r', 's', 'a', '"'] ['r', 's', 'a'] (by decide)).mpr (by decide))
  · exact c9_publicKeyAlgorithm_json_spec.2.2.2 .ECDSA
      ['"', 'f', 'o', 'o', '"'] (by decide)

theorem c10_imageTag_spec_witness :
    (∀ c ∈ kubernetesVersionToImageTag ['v','1','.','2','+','x'], isAllowedTagChar c = true) ∧
    (kubernetesVersionToImageTag ['v','1','.','2','+','x']).get
        ⟨4, by decide⟩ = '_' := by
  refine ⟨(c10_imageTag_spec ['v','1','.','2','+','x']).1, ?_⟩
  have := (c10_imageTag_spec ['v','1','.','2','+','x']).2.2 4 (by decide) (by decide)
  rw [this]
  decide

theorem runConfig_error_of_bad (w : Workload) (meta : Metadata) (s : Snapshot)
    (c : PriorityConfig)
    (h : (∃ e, c.score w meta s = .error e) ∨
      (c.score w meta s = .ok [] ∧ s.nodes ≠ [])) :
    ∃ e, runConfig w meta s c = .error e := by
  rcases h with ⟨e, he⟩ | ⟨he, hne⟩
  · exact ⟨e, by simp [runConfig, he]⟩
  · refine ⟨.emptyResult, ?_⟩
    have : s.nodes.isEmpty = false := by
      cases hn : s.nodes with
      | nil => exact absurd hn hne
      | cons a l => simp [hn]
    simp [runConfig, he, this]

theorem runConfigs_error_of_mem (w : Workload) (meta : Metadata) (s : Snapshot) :
    ∀ (cfgs : List PriorityConfig),
      (∃ c ∈ cfgs, ∃ e, runConfig w meta s c = .error e) →
      ∃ e, runConfigs w meta s cfgs = .error e := by
  intro cfgs
  induction cfgs with
  | nil => rintro ⟨c, hc, _⟩; exact absurd hc (List.not_mem_nil c)
  | cons c0 rest ih =>
    rintro ⟨c, hc, e, he⟩
    cases hrun : runConfig w meta s c0 with
    | error e0 => exact ⟨e0, by simp [runConfigs, hrun]⟩
    | ok l0 =>
      rcases List.mem_cons.mp hc with rfl | hmem
      · rw [hrun] at he; cases he
      · obtain ⟨e1, he1⟩ := ih ⟨c, hmem, e, he⟩
        exact ⟨e1, by simp [runConfigs, hrun, he1]⟩

/-- C4: `Rank` fails fast — if any configured priority function returns
an error, or returns an empty list while the snapshot has nodes, the
whole cycle aborts with an error and no ranking is returned. -/
theorem c4_rank_fail_fast (w : Workload) (s : Snapshot)
    (cfgs : List PriorityConfig)
    (h : ∃ c ∈ cfgs,
      (∃ e, c.score w (extractMetadata w) s = .error e) ∨
      (c.score w (extractMetadata w) s = .ok [] ∧ s.nodes ≠ [])) :
    ∃ e, Rank w s cfgs = .error e := by
  obtain ⟨c, hc, hbad⟩ := h
  obtain ⟨e, he⟩ := runConfigs_error_of_mem w (extractMetadata w) s cfgs
    ⟨c, hc, runConfig_error_of_bad w (extractMetadata w) s c hbad⟩
  exact ⟨e, by simp [Rank, he]⟩

theorem c4_rank_fail_fast_witness :
    (∃ e, Rank ⟨none⟩ ⟨[⟨1, 0⟩], []⟩ [failingConfig] = .error e) ∧
    (∃ e, Rank ⟨none⟩ ⟨[⟨1, 0⟩], []⟩ [emptyListConfig] = .error e) := by
  constructor
  · exact c4_rank_fail_fast ⟨none⟩ ⟨[⟨1, 0⟩], []⟩ [failingConfig]
      ⟨failingConfig, List.mem_cons_self _ _, Or.inl ⟨.scoreFailed, rfl⟩⟩
  · exact c4_rank_fail_fast ⟨none⟩ ⟨[⟨1, 0⟩], []⟩ [emptyListConfig]
      ⟨emptyListConfig, List.mem_cons_self _ _, Or.inr ⟨rfl, by decide⟩⟩

/-- C5: weight linearity of the Aggregator — doubling one config's
weight doubles that config's contribution to every node's total, leaves
every other config's contribution unchanged, and each node's total is
the sum of the per-config contributions. -/
theorem c5_weight_linearity (w : Workload) (s : Snapshot)
    (cfgs : List PriorityConfig) (j : Nat) (hj : j < cfgs.length) (host : Nat) :
    contribution w (extractMetadata w) s
        { cfgs.get ⟨j, hj⟩ with weight := 2 * (cfgs.get ⟨j, hj⟩).weight } host =
      2 * contribution w (extractMetadata w) s (cfgs.get ⟨j, hj⟩) host ∧
    (∀ (i : Nat) (hi : i < cfgs.length)
        (hi2 : i < (cfgs.set j
          { cfgs.get ⟨j, hj⟩ with
            weight := 2 * (cfgs.get ⟨j, hj⟩).weight }).length),
      i ≠ j →
      contribution w (extractMetadata w) s
          ((cfgs.set j
            { cfgs.get ⟨j, hj⟩ with
              weight := 2 * (cfgs.get ⟨j, hj⟩).weight }).get ⟨i, hi2⟩) host =
        contribution w (extractMetadata w) s (cfgs.get ⟨i, hi⟩) host) ∧
    totalScore w (extractMetadata w) s cfgs host =
      (cfgs.map fun c => contribution w (extractMetadata w) s c host).sum := by
  refine ⟨?_, ?_, rfl⟩
  · unfold contribution
    push_cast
    ring
  · intro i hi hi2 hne
    have hget : (cfgs.set j
        { cfgs.get ⟨j, hj⟩ with
          weight := 2 * (cfgs.get ⟨j, hj⟩).weight }).get ⟨i, hi2⟩ =
        cfgs.get ⟨i, hi⟩ := by
      simp only [List.get_eq_getElem]
      exact List.getElem_set_ne (Ne.symm hne) _
    rw [hget]

theorem c5_weight_linearity_witness :
    contribution ⟨none⟩ (extractMetadata ⟨none⟩) ⟨[⟨1, 0⟩, ⟨2, 0⟩], []⟩
        { hostScoreConfig with weight := 2 * hostScoreConfig.weight } 2 =
      2 * contribution ⟨none⟩ (extractMetadata ⟨none⟩) ⟨[⟨1, 0⟩, ⟨2, 0⟩], []⟩
        hostScoreConfig 2 := by
  exact (c5_weight_linearity ⟨none⟩ ⟨[⟨1, 0⟩, ⟨2, 0⟩], []⟩ [hostScoreConfig]
    0 (by decide) 2).1

/-- C6: Selector Spreading neutrality — a workload with no owning
controller receives the same (neutral) score on every node, and the
result never depends on the placed replicas (no counting occurs). -/
theorem c6_selector_spreading_neutral (w : Workload) (nodes : List SchedNode)
    (pods : List PlacedPod) (h : w.selector = none) :
    selectorSpreadScore (extractMetadata w) ⟨nodes, pods⟩ =
      nodes.map (fun n => ⟨n.name, MaxScore⟩) ∧
    (∀ pods', selectorSpreadScore (extractMetadata w) ⟨nodes, pods'⟩ =
      selectorSpreadScore (extractMetadata w) ⟨nodes, pods⟩) ∧
    (∀ a ∈ selectorSpreadScore (extractMetadata w) ⟨nodes, pods⟩,
      ∀ b ∈ selectorSpreadScore (extractMetadata w) ⟨nodes, pods⟩,
        a.score = b.score) := by
  have h1 : ∀ pods0 : List PlacedPod,
      selectorSpreadScore (extractMetadata w) ⟨nodes, pods0⟩ =
        nodes.map (fun n => ⟨n.name, MaxScore⟩) := by
    intro pods0
    simp [selectorSpreadScore, extractMetadata, h]
  refine ⟨h1 pods, fun pods' => (h1 pods').trans (h1 pods).symm, ?_⟩
  intro a ha b hb
  rw [h1 pods] at ha hb
  simp only [List.mem_map] at ha hb
  obtain ⟨na, _, hna⟩ := ha
  obtain ⟨nb, _, hnb⟩ := hb
  rw [← hna, ← hnb]

theorem c6_selector_spreading_neutral_witness :
    selectorSpreadScore (extractMetadata ⟨none⟩)
        ⟨[⟨1, 0⟩, ⟨2, 1⟩], [⟨1, [(0, 0)]⟩]⟩ =
      [⟨1, MaxScore⟩, ⟨2, MaxScore⟩] := by
  have := (c6_selector_spreading_neutral ⟨none⟩ [⟨1, 0⟩, ⟨2, 1⟩]
    [⟨1, [(0, 0)]⟩] rfl).1
  rw [this]
  rfl

/-- C7: `Rank` with an empty config list returns every node of the
snapshot with total score 0, ordered by node identifier ascending. -/
theorem c7_rank_empty_configs (w : Workload) (s : Snapshot) :
    ∃ l, Rank w s [] = .ok l ∧
      (∀ hp ∈ l, hp.score = 0) ∧
      List.Perm (l.map fun hp => hp.host) (s.nodes.map fun n => n.name) ∧
      (l.map fun hp => hp.host).Sorted (· ≤ ·) := by
  have hR : Rank w s [] = Except.ok (List.insertionSort rankLE
      (s.nodes.map fun n => (⟨n.name, 0⟩ : HostPriority))) := rfl
  refine ⟨_, hR, ?_, ?_, ?_⟩
  · intro hp hmem
    have hmem2 : hp ∈ s.nodes.map fun n => (⟨n.name, 0⟩ : HostPriority) :=
      (List.perm_insertionSort rankLE _).mem_iff.mp hmem
    simp only [List.mem_map] at hmem2
    obtain ⟨n, _, hn⟩ := hmem2
    rw [← hn]
  · have hperm := (List.perm_insertionSort rankLE
      (s.nodes.map fun n => (⟨n.name, 0⟩ : HostPriority))).map
      fun hp => hp.host
    rw [List.map_map] at hperm
    exact hperm
  · have hsorted := List.sorted_insertionSort rankLE
      (s.nodes.map fun n => (⟨n.name, 0⟩ : HostPriority))
    refine List.pairwise_map.mpr (List.Pairwise.imp_of_mem ?_ hsorted)
    intro a b ha hb hab
    have hsa : a.score = 0 := by
      have := (List.perm_insertionSort rankLE _).mem_iff.mp ha
      simp only [List.mem_map] at this
      obtain ⟨n, _, hn⟩ := this
      rw [← hn]
    have hsb : b.score = 0 := by
      have := (List.perm_insertionSort rankLE _).mem_iff.mp hb
      simp only [List.mem_map] at this
      obtain ⟨n, _, hn⟩ := this
      rw [← hn]
    rcases hab with hlt | ⟨_, hle⟩
    · rw [hsa, hsb] at hlt; exact absurd hlt (lt_irrefl 0)
    · exact hle

theorem le_maxFrom : ∀ (l : List Int) (a : Int), a ≤ maxFrom a l
  | [], a => le_refl a
  | x :: xs, a => le_trans (le_max_left a x) (le_maxFrom xs (max a x))

theorem maxFrom_le_of_mem : ∀ (l : List Int) (a x : Int), x ∈ l → x ≤ maxFrom a l
  | [], _, x, hx => absurd hx (List.not_mem_nil x)
  | y :: ys, a, x, hx => by
    rcases List.mem_cons.mp hx with rfl | h
    · exact le_trans (le_max_right a x) (le_maxFrom ys (max a x))
    · exact maxFrom_le_of_mem ys (max a y) x h

theorem minFrom_le : ∀ (l : List Int) (a : Int), minFrom a l ≤ a
  | [], a => le_refl a
  | x :: xs, a => le_trans (minFrom_le xs (min a x)) (min_le_left a x)

theorem minFrom_le_of_mem : ∀ (l : List Int) (a x : Int), x ∈ l → minFrom a l ≤ x
  | [], _, x, hx => absurd hx (List.not_mem_nil x)
  | y :: ys, a, x, hx => by
    rcases List.mem_cons.mp hx with rfl | h
    · exact le_trans (minFrom_le ys (min a x)) (min_le_right a x)
    · exact minFrom_le_of_mem ys (min a y) x h

theorem maxFrom_all_eq : ∀ (l : List Int) (a : Int), (∀ x ∈ l, x = a) → maxFrom a l = a
  | [], _, _ => rfl
  | y :: ys, a, h => by
    have hy : y = a := h y (List.mem_cons_self y ys)
    show maxFrom (max a y) ys = a
    rw [hy, max_self]
    exact maxFrom_all_eq ys a fun x hx => h x (List.mem_cons_of_mem y hx)

theorem minFrom_all_eq : ∀ (l : List Int) (a : Int), (∀ x ∈ l, x = a) → minFrom a l = a
  | [], _, _ => rfl
  | y :: ys, a, h => by
    have hy : y = a := h y (List.mem_cons_self y ys)
    show minFrom (min a y) ys = a
    rw [hy, min_self]
    exact minFrom_all_eq ys a fun x hx => h x (List.mem_cons_of_mem y hx)

theorem maxFrom_map_mono (g : Int → Int) (hg : ∀ x y : Int, x ≤ y → g x ≤ g y) :
    ∀ (l : List Int) (a : Int), maxFrom (g a) (l.map g) = g (maxFrom a l)
  | [], _ => rfl
  | y :: ys, a => by
    have hmax : max (g a) (g y) = g (max a y) := by
      rcases le_total a y with h | h
      · rw [max_eq_right (hg a y h), max_eq_right h]
      · rw [max_eq_left (hg y a h), max_eq_left h]
    show maxFrom (max (g a) (g y)) (ys.map g) = g (maxFrom (max a y) ys)
    rw [hmax]
    exact maxFrom_map_mono g hg ys (max a y)

theorem minFrom_map_mono (g : Int → Int) (hg : ∀ x y : Int, x ≤ y → g x ≤ g y) :
    ∀ (l : List Int) (a : Int), minFrom (g a) (l.map g) = g (minFrom a l)
  | [], _ => rfl
  | y :: ys, a => by
    have hmin : min (g a) (g y) = g (min a y) := by
      rcases le_total a y with h | h
      · rw [min_eq_left (hg a y h), min_eq_left h]
      · rw [min_eq_right (hg y a h), min_eq_right h]
    show minFrom (min (g a) (g y)) (ys.map g) = g (minFrom (min a y) ys)
    rw [hmin]
    exact minFrom_map_mono g hg ys (min a y)

theorem rawMin_le_score (hp : HostPriority) :
    ∀ (l : HostPriorityList), hp ∈ l → rawMin l ≤ hp.score := by
  intro l hmem
  cases l with
  | nil => exact absurd hmem (List.not_mem_nil hp)
  | cons hp0 rest =>
    rcases List.mem_cons.mp hmem with rfl | h
    · exact minFrom_le (rest.map fun p => p.score) hp.score
    · exact minFrom_le_of_mem (rest.map fun p => p.score) hp0.score hp.score
        (List.mem_map_of_mem (fun p => p.score) h)

theorem score_le_rawMax (hp : HostPriority) :
    ∀ (l : HostPriorityList), hp ∈ l → hp.score ≤ rawMax l := by
  intro l hmem
  cases l with
  | nil => exact absurd hmem (List.not_mem_nil hp)
  | cons hp0 rest =>
    rcases List.mem_cons.mp hmem with rfl | h
    · exact le_maxFrom (rest.map fun p => p.score) hp.score
    · exact maxFrom_le_of_mem (rest.map fun p => p.score) hp0.score hp.score
        (List.mem_map_of_mem (fun p => p.score) h)

theorem rawMin_le_rawMax (hp : HostPriority) (rest : HostPriorityList) :
    rawMin (hp :: rest) ≤ rawMax (hp :: rest) :=
  le_trans (rawMin_le_score hp (hp :: rest) (List.mem_cons_self hp rest))
    (score_le_rawMax hp (hp :: rest) (List.mem_cons_self hp rest))

theorem minMaxReduce_hosts (l : HostPriorityList) :
    (minMaxReduce l).map (fun p => p.host) = l.map fun p => p.host := by
  cases l with
  | nil => rfl
  | cons hp rest =>
    simp only [minMaxReduce]
    split
    · rw [List.map_map]; rfl
    · rw [List.map_map]; rfl

theorem minMaxReduce_bounds (l : HostPriorityList) :
    ∀ hp ∈ minMaxReduce l, 0 ≤ hp.score ∧ hp.score ≤ MaxScore := by
  intro hp hmem
  cases l with
  | nil => exact absurd hmem (List.not_mem_nil hp)
  | cons hp0 rest =>
    simp only [minMaxReduce] at hmem
    split at hmem
    · simp only [List.mem_map] at hmem
      obtain ⟨p, _, hpeq⟩ := hmem
      rw [← hpeq]
      refine ⟨by norm_num [MaxScore], le_refl MaxScore⟩
    · rename_i hne
      have hd : 0 < rawMax (hp0 :: rest) - rawMin (hp0 :: rest) :=
        sub_pos.mpr (lt_of_le_of_ne (rawMin_le_rawMax hp0 rest) (Ne.symm hne))
      simp only [List.mem_map] at hmem
      obtain ⟨p, hpmem, hpeq⟩ := hmem
      have h1 : rawMin (hp0 :: rest) ≤ p.score := rawMin_le_score p _ hpmem
      have h2 : p.score ≤ rawMax (hp0 :: rest) := score_le_rawMax p _ hpmem
      rw [← hpeq]
      constructor
      · exact Int.ediv_nonneg
          (mul_nonneg (sub_nonneg.mpr h1) (by norm_num [MaxScore])) (le_of_lt hd)
      · calc (p.score - rawMin (hp0 :: rest)) * MaxScore /
              (rawMax (hp0 :: rest) - rawMin (hp0 :: rest))
            ≤ (rawMax (hp0 :: rest) - rawMin (hp0 :: rest)) * MaxScore /
              (rawMax (hp0 :: rest) - rawMin (hp0 :: rest)) :=
              Int.ediv_le_ediv hd (mul_le_mul_of_nonneg_right
                (sub_le_sub_right h2 _) (by norm_num [MaxScore]))
          _ = MaxScore := Int.mul_ediv_cancel_left MaxScore (ne_of_gt hd)

/-- C1: for every non-empty snapshot and every priority function given
as a per-node raw score, the post-Reduce list has exactly one entry per
node of the snapshot (same hosts, same order) and every score lies in
`[0, MaxScore]`. -/
theorem c1_post_reduce_invariant
    (f : Workload → Metadata → SchedNode → Snapshot → Int)
    (w : Workload) (meta : Metadata) (s : Snapshot) (hne : s.nodes ≠ []) :
    ((minMaxReduce (mapStyleScore f w meta s)).map fun hp => hp.host) =
      (s.nodes.map fun n => n.name) ∧
    ∀ hp ∈ minMaxReduce (mapStyleScore f w meta s),
      0 ≤ hp.score ∧ hp.score ≤ MaxScore := by
  constructor
  · rw [minMaxReduce_hosts, mapStyleScore, List.map_map]
    rfl
  · exact minMaxReduce_bounds (mapStyleScore f w meta s)

theorem c1_post_reduce_invariant_witness :
    ((minMaxReduce (mapStyleScore (fun _ _ n _ => (n.name : Int) * 7) ⟨none⟩
        (extractMetadata ⟨none⟩) ⟨[⟨1, 0⟩, ⟨2, 0⟩, ⟨3, 1⟩], []⟩)).map
        fun hp => hp.host) = [1, 2, 3] ∧
    ∀ hp ∈ minMaxReduce (mapStyleScore (fun _ _ n _ => (n.name : Int) * 7) ⟨none⟩
        (extractMetadata ⟨none⟩) ⟨[⟨1, 0⟩, ⟨2, 0⟩, ⟨3, 1⟩], []⟩),
      0 ≤ hp.score ∧ hp.score ≤ MaxScore := by
  have h := c1_post_reduce_invariant (fun _ _ n _ => (n.name : Int) * 7) ⟨none⟩
    (extractMetadata ⟨none⟩) ⟨[⟨1, 0⟩, ⟨2, 0⟩, ⟨3, 1⟩], []⟩ (by decide)
  exact ⟨h.1, h.2⟩

theorem rawMax_map_g (g : Int → Int) (hg : ∀ x y : Int, x ≤ y → g x ≤ g y)
    (hp : HostPriority) (rest : HostPriorityList) :
    rawMax ((hp :: rest).map fun p => { p with score := g p.score }) =
      g (rawMax (hp :: rest)) := by
  show maxFrom (g hp.score)
      ((rest.map fun p => ({ p with score := g p.score } : HostPriority)).map
        fun p => p.score) = g (maxFrom hp.score (rest.map fun p => p.score))
  rw [List.map_map]
  have h2 : (rest.map ((fun p : HostPriority => p.score) ∘
      fun p => ({ p with score := g p.score } : HostPriority))) =
      (rest.map fun p => p.score).map g := by
    rw [List.map_map]; rfl
  rw [h2]
  exact maxFrom_map_mono g hg (rest.map fun p => p.score) hp.score

theorem rawMin_map_g (g : Int → Int) (hg : ∀ x y : Int, x ≤ y → g x ≤ g y)
    (hp : HostPriority) (rest : HostPriorityList) :
    rawMin ((hp :: rest).map fun p => { p with score := g p.score }) =
      g (rawMin (hp :: rest)) := by
  show minFrom (g hp.score)
      ((rest.map fun p => ({ p with score := g p.score } : HostPriority)).map
        fun p => p.score) = g (minFrom hp.score (rest.map fun p => p.score))
  rw [List.map_map]
  have h2 : (rest.map ((fun p : HostPriority => p.score) ∘
      fun p => ({ p with score := g p.score } : HostPriority))) =
      (rest.map fun p => p.score).map g := by
    rw [List.map_map]; rfl
  rw [h2]
  exact minFrom_map_mono g hg (rest.map fun p => p.score) hp.score

theorem minMaxReduce_cons_eq (hp0 : HostPriority) (rest : HostPriorityList)
    (hne : rawMax (hp0 :: rest) ≠ rawMin (hp0 :: rest)) :
    minMaxReduce (hp0 :: rest) = (hp0 :: rest).map fun p =>
      { p with score := (p.score - rawMin (hp0 :: rest)) * MaxScore /
          (rawMax (hp0 :: rest) - rawMin (hp0 :: rest)) } := by
  simp only [minMaxReduce, if_neg hne]

theorem minMaxReduce_cons_allEq (hp0 : HostPriority) (rest : HostPriorityList)
    (heq : rawMax (hp0 :: rest) = rawMin (hp0 :: rest)) :
    minMaxReduce (hp0 :: rest) =
      (hp0 :: rest).map fun p => { p with score := MaxScore } := by
  simp only [minMaxReduce, if_pos heq]

theorem normScore_mono (mn d : Int) (hd : 0 < d) :
    ∀ x y : Int, x ≤ y → (x - mn) * MaxScore / d ≤ (y - mn) * MaxScore / d :=
  fun _ _ h => Int.ediv_le_ediv hd
    (mul_le_mul_of_nonneg_right (sub_le_sub_right h mn) (by norm_num [MaxScore]))

theorem minMaxReduce_eq_of_ne (l : HostPriorityList) (hl : l ≠ [])
    (hne : rawMax l ≠ rawMin l) :
    minMaxReduce l = l.map fun p =>
      { p with score := (p.score - rawMin l) * MaxScore / (rawMax l - rawMin l) } := by
  cases l with
  | nil => exact absurd rfl hl
  | cons hp0 rest => exact minMaxReduce_cons_eq hp0 rest hne

theorem minMaxReduce_eq_of_eq (l : HostPriorityList) (hl : l ≠ [])
    (heq : rawMax l = rawMin l) :
    minMaxReduce l = l.map fun p => { p with score := MaxScore } := by
  cases l with
  | nil => exact absurd rfl hl
  | cons hp0 rest => exact minMaxReduce_cons_allEq hp0 rest heq

theorem rawMax_map_const (l : HostPriorityList) (c : Int) (hl : l ≠ []) :
    rawMax (l.map fun p => { p with score := c }) = c := by
  cases l with
  | nil => exact absurd rfl hl
  | cons hp0 rest =>
    rw [List.map_cons]
    show maxFrom c ((rest.map fun p => ({ p with score := c } : HostPriority)).map
      fun p => p.score) = c
    apply maxFrom_all_eq
    intro x hx
    rw [List.map_map] at hx
    simp only [List.mem_map] at hx
    obtain ⟨p, _, hpx⟩ := hx
    exact hpx.symm

theorem rawMin_map_const (l : HostPriorityList) (c : Int) (hl : l ≠ []) :
    rawMin (l.map fun p => { p with score := c }) = c := by
  cases l with
  | nil => exact absurd rfl hl
  | cons hp0 rest =>
    rw [List.map_cons]
    show minFrom c ((rest.map fun p => ({ p with score := c } : HostPriority)).map
      fun p => p.score) = c
    apply minFrom_all_eq
    intro x hx
    rw [List.map_map] at hx
    simp only [List.mem_map] at hx
    obtain ⟨p, _, hpx⟩ := hx
    exact hpx.symm

theorem minMaxReduce_idem (l : HostPriorityList) :
    minMaxReduce (minMaxReduce l) = minMaxReduce l := by
  cases l with
  | nil => rfl
  | cons hp0 rest =>
    by_cases heq : rawMax (hp0 :: rest) = rawMin (hp0 :: rest)
    · rw [minMaxReduce_cons_allEq hp0 rest heq]
      rw [minMaxReduce_eq_of_eq _ (by simp)
        (by rw [rawMax_map_const _ MaxScore (List.cons_ne_nil hp0 rest),
          rawMin_map_const _ MaxScore (List.cons_ne_nil hp0 rest)])]
      rw [List.map_map]
      rfl
    · have hd : 0 < rawMax (hp0 :: rest) - rawMin (hp0 :: rest) :=
        sub_pos.mpr (lt_of_le_of_ne (rawMin_le_rawMax hp0 rest) (Ne.symm heq))
      have hg := normScore_mono (rawMin (hp0 :: rest))
        (rawMax (hp0 :: rest) - rawMin (hp0 :: rest)) hd
      have hmaxM : rawMax ((hp0 :: rest).map fun p =>
          { p with score := (p.score - rawMin (hp0 :: rest)) * MaxScore /
            (rawMax (hp0 :: rest) - rawMin (hp0 :: rest)) }) = MaxScore := by
        rw [rawMax_map_g
          (fun t => (t - rawMin (hp0 :: rest)) * MaxScore /
            (rawMax (hp0 :: rest) - rawMin (hp0 :: rest))) hg hp0 rest]
        exact Int.mul_ediv_cancel_left MaxScore (ne_of_gt hd)
      have hminM : rawMin ((hp0 :: rest).map fun p =>
          { p with score := (p.score - rawMin (hp0 :: rest)) * MaxScore /
            (rawMax (hp0 :: rest) - rawMin (hp0 :: rest)) }) = 0 := by
        rw [rawMin_map_g
          (fun t => (t - rawMin (hp0 :: rest)) * MaxScore /
            (rawMax (hp0 :: rest) - rawMin (hp0 :: rest))) hg hp0 rest]
        show (rawMin (hp0 :: rest) - rawMin (hp0 :: rest)) * MaxScore /
          (rawMax (hp0 :: rest) - rawMin (hp0 :: rest)) = 0
        rw [sub_self, zero_mul, Int.zero_ediv]
      rw [minMaxReduce_cons_eq hp0 rest heq]
      rw [minMaxReduce_eq_of_ne _ (by simp)
        (by rw [hmaxM, hminM]; norm_num [MaxScore])]
      simp only [hmaxM, hminM, sub_zero]
      have hcancel : ∀ p ∈ (hp0 :: rest).map fun p =>
          ({ p with score := (p.score - rawMin (hp0 :: rest)) * MaxScore /
            (rawMax (hp0 :: rest) - rawMin (hp0 :: rest)) } : HostPriority),
          ({ p with score := p.score * MaxScore / MaxScore } : HostPriority) = id p := by
        intro p _
        have hc : p.score * MaxScore / MaxScore = p.score :=
          Int.mul_ediv_cancel p.score (by norm_num [MaxScore])
        rw [hc]
        rfl
      rw [List.map_congr_left hcancel, List.map_id]

/-- C3: on a non-empty list the default min-max Reduce sends entries
holding the maximum raw score to `MaxScore` and entries holding the
minimum raw score to 0 (when max and min differ); an all-equal list
yields all-equal outputs; and the Reduce is idempotent. -/
theorem c3_minmax_reduce_spec (l : HostPriorityList) (hl : l ≠ []) :
    (rawMax l ≠ rawMin l →
      ∀ (i : Nat) (hp hq : HostPriority), l[i]? = some hp →
        (minMaxReduce l)[i]? = some hq →
        (hp.score = rawMax l → hq.score = MaxScore) ∧
        (hp.score = rawMin l → hq.score = 0)) ∧
    ((∀ hp ∈ l, ∀ hq ∈ l, hp.score = hq.score) →
      ∀ a ∈ minMaxReduce l, ∀ b ∈ minMaxReduce l, a.score = b.score) ∧
    minMaxReduce (minMaxReduce l) = minMaxReduce l := by
  refine ⟨?_, ?_, minMaxReduce_idem l⟩
  · intro hne i hp hq hget hget2
    have hd : 0 < rawMax l - rawMin l := by
      cases l with
      | nil => exact absurd rfl hl
      | cons hp0 rest =>
        exact sub_pos.mpr
          (lt_of_le_of_ne (rawMin_le_rawMax hp0 rest) (Ne.symm hne))
    rw [minMaxReduce_eq_of_ne l hl hne, List.getElem?_map, hget] at hget2
    simp only [Option.map_some', Option.some.injEq] at hget2
    constructor
    · intro hmax
      rw [← hget2]
      show (hp.score - rawMin l) * MaxScore / (rawMax l - rawMin l) = MaxScore
      rw [hmax]
      exact Int.mul_ediv_cancel_left MaxScore (ne_of_gt hd)
    · intro hmin
      rw [← hget2]
      show (hp.score - rawMin l) * MaxScore / (rawMax l - rawMin l) = 0
      rw [hmin, sub_self, zero_mul, Int.zero_ediv]
  · intro hall a ha b hb
    have heq : rawMax l = rawMin l := by
      cases l with
      | nil => exact absurd rfl hl
      | cons hp0 rest =>
        have hx1 : ∀ x ∈ rest.map fun p => p.score, x = hp0.score := by
          intro x hx
          simp only [List.mem_map] at hx
          obtain ⟨p, hpmem, hpx⟩ := hx
          rw [← hpx]
          exact hall p (List.mem_cons_of_mem hp0 hpmem) hp0
            (List.mem_cons_self hp0 rest)
        show maxFrom hp0.score (rest.map fun p => p.score) =
          minFrom hp0.score (rest.map fun p => p.score)
        rw [maxFrom_all_eq (rest.map fun p => p.score) hp0.score hx1,
          minFrom_all_eq (rest.map fun p => p.score) hp0.score hx1]
    rw [minMaxReduce_eq_of_eq l hl heq] at ha hb
    simp only [List.mem_map] at ha hb
    obtain ⟨pa, _, hpa⟩ := ha
    obtain ⟨pb, _, hpb⟩ := hb
    rw [← hpa, ← hpb]

theorem c3_minmax_reduce_spec_witness :
    ((⟨2, (10 : Int)⟩ : HostPriority).score = MaxScore) ∧
    ((⟨1, (0 : Int)⟩ : HostPriority).score = 0) ∧
    minMaxReduce (minMaxReduce [⟨1, 3⟩, ⟨2, 9⟩]) =
      minMaxReduce [⟨1, 3⟩, ⟨2, 9⟩] := by
  have h := c3_minmax_reduce_spec [⟨1, 3⟩, ⟨2, 9⟩] (by decide)
  refine ⟨?_, ?_, h.2.2⟩
  · exact (h.1 (by decide) 1 ⟨2, 9⟩ ⟨2, 10⟩ (by decide) (by decide)).1 (by decide)
  · exact (h.1 (by decide) 0 ⟨1, 3⟩ ⟨1, 0⟩ (by decide) (by decide)).2 (by decide)

/-- C2: `Rank` is deterministic — identical inputs give identical
output, and on success the returned list is strictly ordered by total
score descending with ties broken by node identifier ascending (so even
the tie order is uniquely determined when node identifiers are
distinct). -/
theorem c2_rank_deterministic (w : Workload) (s : Snapshot)
    (cfgs : List PriorityConfig)
    (hhosts : (s.nodes.map fun n => n.name).Nodup) :
    Rank w s cfgs = Rank w s cfgs ∧
    ∀ l, Rank w s cfgs = .ok l → l.Pairwise rankLT := by
  refine ⟨rfl, ?_⟩
  intro l hok
  cases hrc : runConfigs w (extractMetadata w) s cfgs with
  | error e => simp [Rank, hrc] at hok
  | ok u =>
    simp only [Rank, hrc] at hok
    have hperm := (List.perm_insertionSort rankLE
      (s.nodes.map fun n =>
        (⟨n.name, totalScore w (extractMetadata w) s cfgs n.name⟩ :
          HostPriority))).map fun p => p.host
    have hhosts2 : ((s.nodes.map fun n =>
        (⟨n.name, totalScore w (extractMetadata w) s cfgs n.name⟩ :
          HostPriority)).map fun p => p.host).Nodup := by
      rw [List.map_map]
      exact hhosts
    have hnodup := (hperm.symm.nodup) hhosts2
    have hsorted := List.sorted_insertionSort rankLE
      (s.nodes.map fun n =>
        (⟨n.name, totalScore w (extractMetadata w) s cfgs n.name⟩ :
          HostPriority))
    have hneq := List.pairwise_map.mp hnodup
    injection hok with hok2
    subst hok2
    refine (hsorted.and hneq).imp ?_
    rintro a b ⟨hle, hnab⟩
    rcases hle with hlt | ⟨heq, hhle⟩
    · exact Or.inl hlt
    · exact Or.inr ⟨heq, lt_of_le_of_ne hhle hnab⟩

theorem c2_rank_deterministic_witness :
    List.Pairwise rankLT
      [(⟨1, 20⟩ : HostPriority), (⟨2, 0⟩ : HostPriority)] := by
  exact (c2_rank_deterministic ⟨none⟩ ⟨[⟨2, 0⟩, ⟨1, 0⟩], []⟩
    [invHostScoreConfig] (by decide)).2
    [⟨1, 20⟩, ⟨2, 0⟩] rfl
